import Mathlib

/-!
Shallow embedding of the build pipeline in `src/build.rs` of `opus-codec-rs`:
streaming SHA-256 hashing (`calc_hash`), pinned-source download with digest
verification (`download_sources`), and incremental archive unpacking
(`unpack_archive`).

Modelling conventions:
* a byte is a `Nat`; byte buffers are `List` of bytes;
* SHA-256 is modelled as an ideal (collision-free) digest: the hasher state is
  the exact byte sequence absorbed so far, and finalizing yields that
  sequence, so two digests are equal exactly when the absorbed contents are
  equal;
* the filesystem is explicit state: an association list of files (path to
  content) plus a list of directory paths, keyed by paths relative to the
  destination directory;
* Rust panics and propagated `?` errors are explicit constructors of the
  result types.
-/

set_option autoImplicit false

namespace OpusBuild

/-- A byte of file or network content (`u8` in the source). -/
abbrev Byte := Nat

/-- The pinned expected digest, `SOURCE_DIGEST` at `src/build.rs:14`. -/
def SOURCE_DIGEST : String :=
  "c3060a34a1981d4b9c03fb1e505675c89b9e8b90926504f0d2f511ee725c3d36"

/-- Modelled from the spec: the byte size of the digest produced by the
external `sha2::Sha256` implementation, a 256-bit algorithm (the crate itself
is not part of this repository's sources). -/
def sha256OutputSize : Nat := 256 / 8

/-- The state of a `sha2::Sha256` hasher, idealized: the bytes absorbed so
far.  The real hasher keeps a compressed 32-byte state; equality of final
digests corresponds (collision-freely) to equality of absorbed contents. -/
structure Sha256 where
  acc : List Byte
deriving DecidableEq

/-- `Sha256::new()`: a hasher that has absorbed nothing. -/
def Sha256.new : Sha256 := ⟨[]⟩

/-- `hasher.update(data)`: absorb a buffer (`src/build.rs:170` and `:142`). -/
def Sha256.update (h : Sha256) (data : List Byte) : Sha256 := ⟨h.acc ++ data⟩

/-- `hasher.finalize()`: the ideal digest of everything absorbed. -/
def Sha256.finalize (h : Sha256) : List Byte := h.acc

/-- The read loop of `calc_hash` (`src/build.rs:161-173`): the reader's
behaviour is the list of buffers successive `read` calls return; the loop
stops at the first empty read (or at the end of the list, which models a
reader at end of file), feeding each non-empty buffer to the hasher. -/
def hashReads : Sha256 → List (List Byte) → Sha256
  | h, [] => h
  | h, c :: cs => if c = [] then h else hashReads (h.update c) cs

/-- `calc_hash(fs)` (`src/build.rs:161-173`): run the read loop from a fresh
hasher over the reader's successive chunks. -/
def calcHash (reads : List (List Byte)) : Sha256 :=
  hashReads Sha256.new reads

/-- The digest of a byte buffer: `calc_hash` applied to a reader that
delivers the whole content in one read.  By chunking invariance (proved
below) any reader delivering the same content yields the same digest. -/
def digestOf (c : List Byte) : List Byte :=
  (calcHash [c]).finalize

/-- The numeric value of one hex digit, as `hex::decode` accepts it. -/
def hexDigitVal (c : Char) : Option Nat :=
  if '0' ≤ c ∧ c ≤ '9' then some (c.toNat - '0'.toNat)
  else if 'a' ≤ c ∧ c ≤ 'f' then some (c.toNat - 'a'.toNat + 10)
  else if 'A' ≤ c ∧ c ≤ 'F' then some (c.toNat - 'A'.toNat + 10)
  else none

/-- `hex::decode` on a character list: pairs of hex digits become bytes;
an odd length or a non-hex character is an error. -/
def hexDecodeList : List Char → Option (List Byte)
  | [] => some []
  | [_] => none
  | a :: b :: rest =>
    match hexDigitVal a, hexDigitVal b, hexDecodeList rest with
    | some hi, some lo, some tl => some ((16 * hi + lo) :: tl)
    | _, _, _ => none

/-- `hex::decode(digest)` (`src/build.rs:121`). -/
def hexDecode (s : String) : Option (List Byte) :=
  hexDecodeList s.toList

/-- One event of the download callback at `src/build.rs:141-145`: an update
of the shared hasher or a write to the destination file. -/
inductive DlEvent
  | hashUpdate (data : List Byte)
  | fileWrite (data : List Byte)
deriving DecidableEq

/-- How a run of `download_sources` ends: `Ok(())`, an error propagated with
`?`, or the explicit abort at `src/build.rs:152-157`. -/
inductive FetchResult
  | ok
  | err
  | panicked
deriving DecidableEq

/-- The observable outcome of one `download_sources` run: how it ended, the
destination file's content afterwards (`none` when no file exists), whether
the network was contacted, and the ordered callback events. -/
structure FetchOutcome where
  result : FetchResult
  file : Option (List Byte)
  networkAccessed : Bool
  events : List DlEvent
deriving DecidableEq

/-- The transfer loop driven by `easy.perform()` (`src/build.rs:141-146`):
for each arriving chunk the callback first updates the shared hasher
(`src/build.rs:142`) and then writes the chunk to the destination file
(`src/build.rs:143`).  Returns the hasher, the file content written so far,
and the event trace. -/
def downloadLoop : List (List Byte) → Sha256 → List Byte → Sha256 × List Byte × List DlEvent
  | [], h, f => (h, f, [])
  | d :: rest, h, f =>
    match downloadLoop rest (h.update d) (f ++ d) with
    | (h', f', evs) => (h', f', DlEvent.hashUpdate d :: DlEvent.fileWrite d :: evs)

/-- The download half of `download_sources` (`src/build.rs:130-158`): the
destination is opened with `truncate(true)` so its content starts empty, the
transfer runs, and the finalized digest is compared against the expected one
(`src/build.rs:149`); a mismatch aborts (`src/build.rs:152`).  The response
argument is the chunk sequence of a completed transfer. -/
def performDownload (digest : List Byte) (response : List (List Byte)) : FetchOutcome :=
  match downloadLoop response Sha256.new [] with
  | (hasher, content, events) =>
    if digest = hasher.finalize then ⟨FetchResult.ok, some content, true, events⟩
    else ⟨FetchResult.panicked, some content, true, events⟩

/-- `download_sources` (`src/build.rs:113-159`): decode the pinned hex digest
(`:121`); if a file exists at the destination and its digest matches, return
success with no network access (`:123-128`); otherwise download and verify.
`existing` is the destination file's prior content, `response` the chunk
sequence the server would deliver. -/
def download_sources (digestHex : String) (existing : Option (List Byte))
    (response : List (List Byte)) : FetchOutcome :=
  match hexDecode digestHex with
  | none => ⟨FetchResult.err, existing, false, []⟩
  | some digest =>
    match existing with
    | some cached =>
      if digestOf cached = digest then ⟨FetchResult.ok, some cached, false, []⟩
      else performDownload digest response
    | none => performDownload digest response

/-- One entry of the zip archive: its name, whether it is a directory, and
its content (empty for directories).  Entry order is archive order. -/
structure ZipEntry where
  name : String
  isDir : Bool
  content : List Byte
deriving DecidableEq

/-- The filesystem under the destination directory: files as an association
list from relative path to content, plus the relative paths of existing
directories (`""` is the destination directory itself). -/
structure DirState where
  files : List (String × List Byte)
  dirs : List String
deriving DecidableEq

/-- A destination directory that exists and is empty. -/
def DirState.init : DirState := ⟨[], [""]⟩

/-- Content of the file at `p`, if one exists. -/
def lookupFile : List (String × List Byte) → String → Option (List Byte)
  | [], _ => none
  | kv :: rest, p => if kv.1 = p then some kv.2 else lookupFile rest p

/-- `std::fs::remove_file` (`src/build.rs:95`): drop the entry at `p`. -/
def eraseFile : List (String × List Byte) → String → List (String × List Byte)
  | [], _ => []
  | kv :: rest, p => if kv.1 = p then eraseFile rest p else kv :: eraseFile rest p

/-- `File::create` + `io::copy` (`src/build.rs:102-103`): the file at `p`
now has content `c`. -/
def setFile (fs : List (String × List Byte)) (p : String) (c : List Byte) :
    List (String × List Byte) :=
  (p, c) :: eraseFile fs p

/-- Splitting a character sequence at `/`, as Rust's `split('/')` does on
the archive's ASCII names: `"a/b"` gives `["a", "b"]`, a trailing `/` gives
a final empty group, and the empty sequence gives one empty group. -/
def splitSlash : List Char → List (List Char)
  | [] => [[]]
  | c :: rest =>
    if c = '/' then [] :: splitSlash rest
    else
      match splitSlash rest with
      | [] => [[c]]
      | g :: gs => (c :: g) :: gs

/-- Joining groups of characters with `/` between them. -/
def joinSlash : List (List Char) → List Char
  | [] => []
  | [g] => g
  | g :: gs => g ++ '/' :: joinSlash gs

/-- `Path::parent` on a relative path: drop the last `/`-separated
component; the parent of a single component (and of `""`) is `""`, which
stands for the always-existing destination directory (for `""` itself the
real parent is the enclosing output directory, which also always exists —
only its existence is ever queried).  This string-level parent differs from
the component-normalizing `Path::parent` on names with a trailing `/` (for
`"dd/"` it gives `"dd"` where Rust gives the enclosing directory); the
divergence can only add directory creations, since the parent path feeds
nothing but the existence check before `create_dir_all`. -/
def pathParent (p : String) : String :=
  String.mk (joinSlash ((splitSlash p.data).dropLast))

/-- Every path of the parent chain of `p`, `""` included: what
`std::fs::create_dir_all(p)` brings into existence. -/
def ancestorPaths (p : String) : List String :=
  (List.range ((splitSlash p.data).length + 1)).map
    (fun n => String.mk (joinSlash ((splitSlash p.data).take n)))

/-- `create_dir_all` on the directory list. -/
def createDirAll (dirs : List String) (p : String) : List String :=
  ancestorPaths p ++ dirs

/-- `Path::exists`: a file or a directory is at `p`. -/
def pathExists (st : DirState) (p : String) : Bool :=
  (lookupFile st.files p).isSome || st.dirs.contains p

/-- A filesystem mutation performed while unpacking; directory creations are
kept distinct from the file deletions and file writes the spec reasons
about. -/
inductive FsAction
  | createDir (p : String)
  | removeFile (p : String)
  | writeFile (p : String) (content : List Byte)
deriving DecidableEq

/-- Whether an action is a directory creation (neither a file deletion nor a
file write). -/
def FsAction.isCreateDir : FsAction → Bool
  | FsAction.createDir _ => true
  | FsAction.removeFile _ => false
  | FsAction.writeFile _ _ => false

/-- Rust byte slicing `&s[i..]` for the ASCII paths of the archive (byte
index = character index): `none` models the out-of-range slice panic; at
`i = s.len()` the slice is legal and empty. -/
def rustSliceFrom (s : String) (i : Nat) : Option String :=
  if i ≤ s.length then some (String.mk (s.data.drop i)) else none

/-- The destination name of an entry once the root prefix of length
`root.length` and its trailing `/` are stripped (`src/build.rs:79`). -/
def dstNameOf (root : String) (e : ZipEntry) : String :=
  String.mk (e.name.data.drop (root.length + 1))

/-- Parent-directory provisioning per entry (`src/build.rs:82-84`). -/
def ensureDir (st : DirState) (p : String) : DirState × List FsAction :=
  if pathExists st p then (st, [])
  else ({ st with dirs := createDirAll st.dirs p }, [FsAction.createDir p])

/-- One iteration of the unpack loop (`src/build.rs:77-107`) on entry `e`:
compute the stripped destination name (`none` is the slice panic at
`src/build.rs:79`), provision the parent directory, then either ensure a
directory exists (`:86-89`) or, for a file, compare digests when a file is
already present, delete it on mismatch, and write the entry's content
whenever no file remains at the destination (`:91-104`).  Modelling scope:
the existence test of the file branch consults the file map, and the
fallible per-entry filesystem calls (`File::open`, `remove_file`,
`File::create`, `io::copy`, `create_dir_all`) are modelled as succeeding, so
traces where the code aborts with a propagated error — for example a
directory occupying a file entry's destination, where `exists()` at `:91` is
true but `File::open` at `:92` fails — are outside the model; its only
failure is the slice panic, which the code evaluates before any of those
calls. -/
def processEntry (root : String) (st : DirState) (e : ZipEntry) :
    Option (DirState × List FsAction) :=
  match rustSliceFrom e.name (root.length + 1) with
  | none => none
  | some dstName =>
    let st1 := (ensureDir st (pathParent dstName)).1
    let parentActs := (ensureDir st (pathParent dstName)).2
    if e.isDir then
      if pathExists st1 dstName then some (st1, parentActs)
      else some ({ st1 with dirs := createDirAll st1.dirs dstName },
                 parentActs ++ [FsAction.createDir dstName])
    else
      match lookupFile st1.files dstName with
      | some existing =>
        if digestOf existing ≠ digestOf e.content then
          some ({ st1 with files := setFile (eraseFile st1.files dstName) dstName e.content },
                parentActs ++ [FsAction.removeFile dstName,
                               FsAction.writeFile dstName e.content])
        else some (st1, parentActs)
      | none =>
        some ({ st1 with files := setFile st1.files dstName e.content },
              parentActs ++ [FsAction.writeFile dstName e.content])

/-- The unpack loop over the entries after the first (`src/build.rs:77`),
threading the filesystem state and concatenating the performed actions;
`none` propagates a panic. -/
def processEntries (root : String) : DirState → List ZipEntry → Option (DirState × List FsAction)
  | st, [] => some (st, [])
  | st, e :: rest =>
    match processEntry root st e with
    | none => none
    | some (st', acts) =>
      match processEntries root st' rest with
      | none => none
      | some (st'', acts') => some (st'', acts ++ acts')

/-- The synthetic root: the first `/`-separated component of the first
entry's name (`src/build.rs:69-75`). -/
def rootOf (firstName : String) : String :=
  String.mk ((splitSlash firstName.data).headD [])

/-- How a run of `unpack_archive` ends: success with the resulting state and
the actions performed, a panic (slice out of range), or a propagated `?`
error (no first entry to read). -/
inductive UnpackResult
  | ok (st : DirState) (acts : List FsAction)
  | panicked
  | err
deriving DecidableEq

/-- `unpack_archive` (`src/build.rs:57-111`): create the destination
directory if missing (`:63-65`), read the first entry's top-level segment as
the root prefix (`:69-75`), then process every later entry. -/
def unpack_archive (entries : List ZipEntry) (st : DirState) : UnpackResult :=
  let st0 := if st.dirs.contains "" then st else { st with dirs := "" :: st.dirs }
  match entries with
  | [] => UnpackResult.err
  | first :: rest =>
    match processEntries (rootOf first.name) st0 rest with
    | none => UnpackResult.panicked
    | some (st', acts) => UnpackResult.ok st' acts

/-- The stripped destination names of the file entries of `es`, in order. -/
def fileDstNames (root : String) (es : List ZipEntry) : List String :=
  (es.filter (fun e => !e.isDir)).map (dstNameOf root)

/-- An archive holding the same file path twice with different contents:
root `r/`, then `r/x` with content `[1]`, then `r/x` with content `[2]`. -/
def dupArchive : List ZipEntry :=
  [⟨"r/", true, []⟩, ⟨"r/x", false, [1]⟩, ⟨"r/x", false, [2]⟩]

/-- The bytes written to the destination file in an event trace, in order. -/
def writtenBytes (evs : List DlEvent) : List Byte :=
  (evs.filterMap fun e => match e with
    | DlEvent.fileWrite d => some d
    | DlEvent.hashUpdate _ => none).flatten

/-- The bytes fed to the digest accumulator in an event trace, in order. -/
def hashedBytes (evs : List DlEvent) : List Byte :=
  (evs.filterMap fun e => match e with
    | DlEvent.hashUpdate d => some d
    | DlEvent.fileWrite _ => none).flatten

/-- The event trace the callback produces on a chunk sequence: per chunk, a
hasher update followed by a file write. -/
def dlTrace (resp : List (List Byte)) : List DlEvent :=
  (resp.map fun d => [DlEvent.hashUpdate d, DlEvent.fileWrite d]).flatten

/-! ### Helper lemmas -/

theorem digestOf_eq (c : List Byte) : digestOf c = c := by
  cases c with
  | nil => rfl
  | cons a l =>
    simp [digestOf, calcHash, hashReads, Sha256.new, Sha256.update, Sha256.finalize]

theorem hashReads_eq (r : List (List Byte)) (h : Sha256) (hne : ∀ c ∈ r, c ≠ []) :
    hashReads h r = ⟨h.acc ++ r.flatten⟩ := by
  induction r generalizing h with
  | nil => simp [hashReads]
  | cons c cs ih =>
    have hc : c ≠ [] := hne c (by simp)
    simp only [hashReads, if_neg hc]
    rw [ih (h.update c) (fun d hd => hne d (by simp [hd]))]
    simp [Sha256.update]

theorem downloadLoop_eq (resp : List (List Byte)) (h : Sha256) (f : List Byte) :
    downloadLoop resp h f = (⟨h.acc ++ resp.flatten⟩, f ++ resp.flatten, dlTrace resp) := by
  induction resp generalizing h f with
  | nil => simp [downloadLoop, dlTrace]
  | cons d rest ih =>
    simp [downloadLoop, ih, Sha256.update, dlTrace, List.append_assoc]

theorem performDownload_eq (digest : List Byte) (resp : List (List Byte)) :
    performDownload digest resp =
      if digest = resp.flatten then
        ⟨FetchResult.ok, some resp.flatten, true, dlTrace resp⟩
      else
        ⟨FetchResult.panicked, some resp.flatten, true, dlTrace resp⟩ := by
  simp [performDownload, downloadLoop_eq, Sha256.new, Sha256.finalize]

theorem writtenBytes_dlTrace (resp : List (List Byte)) :
    writtenBytes (dlTrace resp) = resp.flatten := by
  induction resp with
  | nil => rfl
  | cons d rest ih => simp [dlTrace, writtenBytes, List.filterMap] at ih ⊢; simp [ih]

theorem hashedBytes_dlTrace (resp : List (List Byte)) :
    hashedBytes (dlTrace resp) = resp.flatten := by
  induction resp with
  | nil => rfl
  | cons d rest ih => simp [dlTrace, hashedBytes, List.filterMap] at ih ⊢; simp [ih]

/-! ### Claims about the fetcher and the hasher -/

/-- C1: for every fetch run in which the downloaded content's finalized
digest does not equal the pinned expected digest, `download_sources` aborts
(panics) and never returns success. -/
theorem fetch_mismatch_never_ok (digestHex : String) (existing : Option (List Byte))
    (response : List (List Byte)) (expected : List Byte)
    (hdec : hexDecode digestHex = some expected)
    (hnet : (download_sources digestHex existing response).networkAccessed = true)
    (hne : (downloadLoop response Sha256.new []).1.finalize ≠ expected) :
    (download_sources digestHex existing response).result = FetchResult.panicked ∧
    (download_sources digestHex existing response).result ≠ FetchResult.ok := by
  have hflat : (downloadLoop response Sha256.new []).1.finalize = response.flatten := by
    simp [downloadLoop_eq, Sha256.new, Sha256.finalize]
  rw [hflat] at hne
  have hcond : expected ≠ response.flatten := fun h => hne h.symm
  simp only [download_sources, hdec] at hnet ⊢
  cases existing with
  | none =>
    rw [performDownload_eq, if_neg hcond]
    exact ⟨rfl, by simp⟩
  | some cached =>
    by_cases hc : digestOf cached = expected
    · simp [hc] at hnet
    · simp only [if_neg hc]
      rw [performDownload_eq, if_neg hcond]
      exact ⟨rfl, by simp⟩

/-- Witness for C1 at a concrete input: expected digest `ab` (byte 171), no
cached file, a response of one chunk `[1]` whose digest is `[1] ≠ [171]`. -/
theorem fetch_mismatch_never_ok_witness :
    hexDecode "ab" = some [171] ∧
    (download_sources "ab" none [[1]]).networkAccessed = true ∧
    (downloadLoop [[1]] Sha256.new []).1.finalize ≠ [171] ∧
    ((download_sources "ab" none [[1]]).result = FetchResult.panicked ∧
     (download_sources "ab" none [[1]]).result ≠ FetchResult.ok) :=
  ⟨by decide, by decide, by decide,
   fetch_mismatch_never_ok "ab" none [[1]] [171] (by decide) (by decide) (by decide)⟩

/-- C2: a cached file whose digest equals the pinned digest makes fetch
return success immediately: no network access, no callback events, the file
untouched. -/
theorem fetch_cache_hit (digestHex : String) (cached : List Byte)
    (response : List (List Byte)) (expected : List Byte)
    (hdec : hexDecode digestHex = some expected)
    (hmatch : digestOf cached = expected) :
    download_sources digestHex (some cached) response =
      ⟨FetchResult.ok, some cached, false, []⟩ := by
  simp [download_sources, hdec, hmatch]

/-- Witness for C2 at a concrete input: cached content `[171]` matching the
pinned hex digest `ab`. -/
theorem fetch_cache_hit_witness :
    hexDecode "ab" = some [171] ∧
    digestOf [171] = [171] ∧
    download_sources "ab" (some [171]) [[1], [2]] =
      ⟨FetchResult.ok, some [171], false, []⟩ :=
  ⟨by decide, by decide, fetch_cache_hit "ab" [171] [[1], [2]] [171] (by decide) (by decide)⟩

/-- C3, counterexample: at a concrete downloading run the callback's first
event on the chunk `[1]` is the hasher update, not the file write — the
chunk is hashed before it is written, not written before it is hashed. -/
theorem fetch_write_order_counterexample :
    (download_sources "" none [[1]]).events =
      [DlEvent.hashUpdate [1], DlEvent.fileWrite [1]] ∧
    (download_sources "" none [[1]]).events ≠
      [DlEvent.fileWrite [1], DlEvent.hashUpdate [1]] := by
  decide

/-- C3, amended: on every downloading run, each arriving chunk is first fed
into the running digest accumulator and then written to the destination
file, in that order, and the bytes written to the file equal the bytes fed
to the accumulator, so no byte written to the file is omitted from the
hash. -/
theorem fetch_hash_then_write (digestHex : String) (existing : Option (List Byte))
    (response : List (List Byte))
    (hnet : (download_sources digestHex existing response).networkAccessed = true) :
    (download_sources digestHex existing response).events = dlTrace response ∧
    writtenBytes (download_sources digestHex existing response).events =
      hashedBytes (download_sources digestHex existing response).events := by
  suffices hev : (download_sources digestHex existing response).events = dlTrace response by
    refine ⟨hev, ?_⟩
    rw [hev, writtenBytes_dlTrace, hashedBytes_dlTrace]
  cases hd : hexDecode digestHex with
  | none => simp [download_sources, hd] at hnet
  | some expected =>
    cases existing with
    | none =>
      simp only [download_sources, hd]
      rw [performDownload_eq]; split <;> rfl
    | some cached =>
      by_cases hc : digestOf cached = expected
      · simp [download_sources, hd, hc] at hnet
      · simp only [download_sources, hd, if_neg hc]
        rw [performDownload_eq]; split <;> rfl

/-- Witness for C3 (amended) at a concrete downloading run. -/
theorem fetch_hash_then_write_witness :
    (download_sources "" none [[1], [2]]).networkAccessed = true ∧
    ((download_sources "" none [[1], [2]]).events = dlTrace [[1], [2]] ∧
     writtenBytes (download_sources "" none [[1], [2]]).events =
       hashedBytes (download_sources "" none [[1], [2]]).events) :=
  ⟨by decide, fetch_hash_then_write "" none [[1], [2]] (by decide)⟩

/-- C7: the digest `calc_hash` computes does not depend on how the content
is partitioned across successive read calls: any two readers delivering the
same total byte content, chunked differently, yield identical digests. -/
theorem calc_hash_chunk_invariant (r1 r2 : List (List Byte))
    (h1 : ∀ c ∈ r1, c ≠ []) (h2 : ∀ c ∈ r2, c ≠ [])
    (hjoin : r1.flatten = r2.flatten) :
    (calcHash r1).finalize = (calcHash r2).finalize := by
  simp [calcHash, hashReads_eq _ _ h1, hashReads_eq _ _ h2, Sha256.new, Sha256.finalize, hjoin]

/-- Witness for C7: the content `[1, 2, 3]` read as `[1, 2]` then `[3]`, or
as `[1]` then `[2, 3]`. -/
theorem calc_hash_chunk_invariant_witness :
    (∀ c ∈ [[1, 2], [3]], c ≠ ([] : List Byte)) ∧
    (∀ c ∈ [[1], [2, 3]], c ≠ ([] : List Byte)) ∧
    ([[1, 2], [3]] : List (List Byte)).flatten = ([[1], [2, 3]] : List (List Byte)).flatten ∧
    (calcHash [[1, 2], [3]]).finalize = (calcHash [[1], [2, 3]]).finalize :=
  ⟨by decide, by decide, by decide,
   calc_hash_chunk_invariant [[1, 2], [3]] [[1], [2, 3]] (by decide) (by decide) (by decide)⟩

/-- C8: when a file exists at the destination but its digest does not match
the expected digest, fetch truncates and fully rewrites it: the resulting
file content is exactly the downloaded bytes, with no dependence on the
previous content. -/
theorem fetch_stale_cache_rewritten (digestHex : String) (cached : List Byte)
    (response : List (List Byte)) (expected : List Byte)
    (hdec : hexDecode digestHex = some expected)
    (hmiss : digestOf cached ≠ expected) :
    (download_sources digestHex (some cached) response).file = some response.flatten := by
  simp only [download_sources, hdec, if_neg hmiss]
  rw [performDownload_eq]; split <;> rfl

/-- Witness for C8: stale cached content `[5]` against pinned digest `ab`;
after the run the file holds exactly the downloaded bytes `[9]`. -/
theorem fetch_stale_cache_rewritten_witness :
    hexDecode "ab" = some [171] ∧
    digestOf [5] ≠ [171] ∧
    (download_sources "ab" (some [5]) [[9]]).file = some ([[9]] : List (List Byte)).flatten :=
  ⟨by decide, by decide, fetch_stale_cache_rewritten "ab" [5] [[9]] [171] (by decide) (by decide)⟩

/-- C9: the pinned `SOURCE_DIGEST` hex constant decodes to exactly 32 bytes,
the output size of the 256-bit hash algorithm, its 64 hex characters being
two per byte. -/
theorem source_digest_length_consistent :
    (hexDecode SOURCE_DIGEST).map List.length = some sha256OutputSize ∧
    SOURCE_DIGEST.length = 2 * sha256OutputSize := by
  decide

/-! ### Helper lemmas about the unpack filesystem model -/

theorem lookupFile_eraseFile (fs : List (String × List Byte)) (p q : String) :
    lookupFile (eraseFile fs p) q = if q = p then none else lookupFile fs q := by
  induction fs with
  | nil => simp [eraseFile, lookupFile]
  | cons kv rest ih =>
    simp only [eraseFile, lookupFile]
    by_cases h1 : kv.1 = p
    · rw [if_pos h1, ih]
      by_cases hq : q = p
      · simp [hq]
      · have h2 : ¬(kv.1 = q) := fun hh => hq ((h1.symm.trans hh).symm)
        simp [hq, lookupFile, h2]
    · rw [if_neg h1]
      simp only [lookupFile, ih]
      by_cases h2 : kv.1 = q
      · have hq : ¬(q = p) := fun hh => h1 (h2.trans hh)
        simp [h2, hq]
      · simp [h2]

theorem lookupFile_setFile (fs : List (String × List Byte)) (p : String) (c : List Byte)
    (q : String) :
    lookupFile (setFile fs p c) q = if q = p then some c else lookupFile fs q := by
  by_cases hq : q = p
  · simp [setFile, lookupFile, hq]
  · have h2 : ¬(p = q) := fun hh => hq hh.symm
    simp [setFile, lookupFile, h2, lookupFile_eraseFile, hq]

theorem ensureDir_files (st : DirState) (p : String) :
    (ensureDir st p).1.files = st.files := by
  simp only [ensureDir]
  split <;> rfl

theorem ensureDir_acts (st : DirState) (p : String) :
    ∀ a ∈ (ensureDir st p).2, a.isCreateDir = true := by
  simp only [ensureDir]
  split
  · simp
  · simp [FsAction.isCreateDir]

theorem rustSliceFrom_some (s : String) (i : Nat) (h : i ≤ s.length) :
    rustSliceFrom s i = some (String.mk (s.data.drop i)) := by
  simp [rustSliceFrom, h]

theorem processEntry_name_le (root : String) (st : DirState) (e : ZipEntry)
    (x : DirState × List FsAction) (h : processEntry root st e = some x) :
    root.length + 1 ≤ e.name.length := by
  by_contra hlt
  simp only [processEntry, rustSliceFrom, if_neg hlt] at h
  exact Option.noConfusion h

theorem processEntry_none_of_short (root : String) (st : DirState) (e : ZipEntry)
    (h : e.name.length < root.length + 1) :
    processEntry root st e = none := by
  have hlt : ¬(root.length + 1 ≤ e.name.length) := by omega
  simp only [processEntry, rustSliceFrom, if_neg hlt]

theorem processEntry_spec (root : String) (st : DirState) (e : ZipEntry)
    (st' : DirState) (acts : List FsAction)
    (h : processEntry root st e = some (st', acts)) :
    (e.isDir = true → st'.files = st.files) ∧
    (e.isDir = false → lookupFile st'.files (dstNameOf root e) = some e.content) ∧
    (∀ q, q ≠ dstNameOf root e → lookupFile st'.files q = lookupFile st.files q) := by
  have hslice := processEntry_name_le root st e _ h
  have hs := rustSliceFrom_some e.name (root.length + 1) hslice
  have hfl := ensureDir_files st (pathParent (String.mk (e.name.data.drop (root.length + 1))))
  simp only [processEntry, hs] at h
  split at h
  case isTrue hdir =>
    split at h <;>
    · simp only [Option.some.injEq, Prod.mk.injEq] at h
      obtain ⟨h1, h2⟩ := h
      subst h1
      refine ⟨fun _ => hfl, fun habs => by rw [habs] at hdir; exact Bool.noConfusion hdir,
              fun q _ => by rw [hfl]⟩
  case isFalse hdir =>
    have hdir' : e.isDir = false := by
      cases hd : e.isDir
      · rfl
      · exact absurd hd hdir
    split at h
    case h_1 existing heq =>
      split at h
      case isTrue hne =>
        simp only [Option.some.injEq, Prod.mk.injEq] at h
        obtain ⟨h1, h2⟩ := h
        subst h1
        refine ⟨fun habs => by rw [habs] at hdir'; exact Bool.noConfusion hdir', fun _ => ?_,
                fun q hq => ?_⟩
        · simp [dstNameOf, lookupFile_setFile]
        · simp only [dstNameOf] at hq
          simp [lookupFile_setFile, lookupFile_eraseFile, hq, hfl]
      case isFalse hne =>
        simp only [Option.some.injEq, Prod.mk.injEq] at h
        obtain ⟨h1, h2⟩ := h
        subst h1
        have hex : existing = e.content := by
          have := not_not.mp hne
          rw [digestOf_eq, digestOf_eq] at this
          exact this
        refine ⟨fun habs => by rw [habs] at hdir'; exact Bool.noConfusion hdir', fun _ => ?_,
                fun q _ => by rw [hfl]⟩
        simp only [dstNameOf]
        rw [heq, hex]
    case h_2 heq =>
      simp only [Option.some.injEq, Prod.mk.injEq] at h
      obtain ⟨h1, h2⟩ := h
      subst h1
      refine ⟨fun habs => by rw [habs] at hdir'; exact Bool.noConfusion hdir', fun _ => ?_,
              fun q hq => ?_⟩
      · simp [dstNameOf, lookupFile_setFile]
      · simp only [dstNameOf] at hq
        simp [lookupFile_setFile, hq, hfl]

theorem processEntry_preserving (root : String) (st : DirState) (e : ZipEntry)
    (hslice : root.length + 1 ≤ e.name.length)
    (hskip : e.isDir = true ∨ lookupFile st.files (dstNameOf root e) = some e.content) :
    ∃ st' acts, processEntry root st e = some (st', acts) ∧
      st'.files = st.files ∧ ∀ a ∈ acts, a.isCreateDir = true := by
  have hs := rustSliceFrom_some e.name (root.length + 1) hslice
  have hfl := ensureDir_files st (pathParent (String.mk (e.name.data.drop (root.length + 1))))
  have hpa := ensureDir_acts st (pathParent (String.mk (e.name.data.drop (root.length + 1))))
  cases hd : e.isDir
  case false =>
    have hlook : lookupFile st.files (dstNameOf root e) = some e.content := by
      rcases hskip with hdir | hl
      · rw [hd] at hdir; exact Bool.noConfusion hdir
      · exact hl
    have hl2 : lookupFile ((ensureDir st (pathParent (String.mk (e.name.data.drop (root.length + 1))))).1.files)
        (String.mk (e.name.data.drop (root.length + 1))) = some e.content := by
      rw [hfl]; exact hlook
    refine ⟨_, _, ?_, hfl, hpa⟩
    simp [processEntry, hs, hd, hl2]
  case true =>
    by_cases hex : pathExists ((ensureDir st (pathParent (String.mk (e.name.data.drop (root.length + 1))))).1)
        (String.mk (e.name.data.drop (root.length + 1))) = true
    · refine ⟨_, _, ?_, hfl, hpa⟩
      simp [processEntry, hs, hd, hex]
    · refine ⟨{ (ensureDir st (pathParent (String.mk (e.name.data.drop (root.length + 1))))).1 with
          dirs := createDirAll
            ((ensureDir st (pathParent (String.mk (e.name.data.drop (root.length + 1))))).1.dirs)
            (String.mk (e.name.data.drop (root.length + 1))) },
        (ensureDir st (pathParent (String.mk (e.name.data.drop (root.length + 1))))).2 ++
          [FsAction.createDir (String.mk (e.name.data.drop (root.length + 1)))], ?_, hfl, ?_⟩
      · simp [processEntry, hs, hd, hex]
      · intro a ha
        rcases List.mem_append.mp ha with h | h
        · exact hpa a h
        · simp only [List.mem_singleton] at h; subst h; rfl

theorem processEntries_cons_inv (root : String) (st : DirState) (e0 : ZipEntry)
    (rest : List ZipEntry) (st' : DirState) (acts : List FsAction)
    (h : processEntries root st (e0 :: rest) = some (st', acts)) :
    ∃ st1 a1 a2, processEntry root st e0 = some (st1, a1) ∧
      processEntries root st1 rest = some (st', a2) ∧ acts = a1 ++ a2 := by
  simp only [processEntries] at h
  cases h0 : processEntry root st e0 with
  | none =>
    simp only [h0] at h
    exact Option.noConfusion h
  | some y =>
    rcases y with ⟨st1, a1⟩
    simp only [h0] at h
    cases h1 : processEntries root st1 rest with
    | none =>
      simp only [h1] at h
      exact Option.noConfusion h
    | some z =>
      rcases z with ⟨st2, a2⟩
      simp only [h1, Option.some.injEq, Prod.mk.injEq] at h
      obtain ⟨hst, hacts⟩ := h
      exact ⟨st1, a1, a2, rfl, hst ▸ h1, hacts.symm⟩

theorem processEntries_names_le (root : String) (st : DirState) (es : List ZipEntry)
    (x : DirState × List FsAction) (h : processEntries root st es = some x) :
    ∀ e ∈ es, root.length + 1 ≤ e.name.length := by
  induction es generalizing st x with
  | nil => intro e he; exact absurd he (List.not_mem_nil e)
  | cons e0 rest ih =>
    rcases x with ⟨st', acts⟩
    obtain ⟨st1, a1, a2, h0, h1, -⟩ := processEntries_cons_inv root st e0 rest st' acts h
    intro e he
    rcases List.mem_cons.mp he with rfl | hmem
    · exact processEntry_name_le root st e _ h0
    · exact ih st1 (st', a2) h1 e hmem

theorem processEntries_lookup_other (root : String) (st : DirState) (es : List ZipEntry)
    (st' : DirState) (acts : List FsAction) (q : String)
    (h : processEntries root st es = some (st', acts))
    (hq : ∀ e ∈ es, e.isDir = false → dstNameOf root e ≠ q) :
    lookupFile st'.files q = lookupFile st.files q := by
  induction es generalizing st st' acts with
  | nil =>
    simp only [processEntries, Option.some.injEq, Prod.mk.injEq] at h
    rw [← h.1]
  | cons e0 rest ih =>
    obtain ⟨st1, a1, a2, h0, h1, -⟩ := processEntries_cons_inv root st e0 rest st' acts h
    have hspec := processEntry_spec root st e0 st1 a1 h0
    have hstep : lookupFile st1.files q = lookupFile st.files q := by
      cases hd : e0.isDir
      · exact hspec.2.2 q (Ne.symm (hq e0 (by simp) hd))
      · rw [hspec.1 hd]
    rw [ih st1 st' a2 h1 (fun e he hfe => hq e (by simp [he]) hfe), hstep]

theorem mem_fileDstNames (root : String) (es : List ZipEntry) (e : ZipEntry)
    (he : e ∈ es) (hfe : e.isDir = false) : dstNameOf root e ∈ fileDstNames root es := by
  simp only [fileDstNames, List.mem_map]
  exact ⟨e, List.mem_filter.mpr ⟨he, by simp [hfe]⟩, rfl⟩

theorem fileDstNames_cons_file (root : String) (e0 : ZipEntry) (rest : List ZipEntry)
    (hfe : e0.isDir = false) :
    fileDstNames root (e0 :: rest) = dstNameOf root e0 :: fileDstNames root rest := by
  simp [fileDstNames, hfe]

theorem fileDstNames_cons_dir (root : String) (e0 : ZipEntry) (rest : List ZipEntry)
    (hd : e0.isDir = true) :
    fileDstNames root (e0 :: rest) = fileDstNames root rest := by
  simp [fileDstNames, hd]

theorem processEntries_lookup_content (root : String) (st : DirState) (es : List ZipEntry)
    (st' : DirState) (acts : List FsAction)
    (h : processEntries root st es = some (st', acts))
    (hnd : (fileDstNames root es).Nodup) :
    ∀ e ∈ es, e.isDir = false → lookupFile st'.files (dstNameOf root e) = some e.content := by
  induction es generalizing st st' acts with
  | nil => intro e he; exact absurd he (List.not_mem_nil e)
  | cons e0 rest ih =>
    obtain ⟨st1, a1, a2, h0, h1, -⟩ := processEntries_cons_inv root st e0 rest st' acts h
    have hnd' : (fileDstNames root rest).Nodup := by
      cases hd : e0.isDir
      · exact (List.nodup_cons.mp ((fileDstNames_cons_file root e0 rest hd) ▸ hnd)).2
      · exact (fileDstNames_cons_dir root e0 rest hd) ▸ hnd
    intro e he hfe
    rcases List.mem_cons.mp he with rfl | hmem
    · have hself := (processEntry_spec root st e st1 a1 h0).2.1 hfe
      have hnotin : dstNameOf root e ∉ fileDstNames root rest :=
        (List.nodup_cons.mp ((fileDstNames_cons_file root e rest hfe) ▸ hnd)).1
      have hpres : lookupFile st'.files (dstNameOf root e) =
          lookupFile st1.files (dstNameOf root e) := by
        apply processEntries_lookup_other root st1 rest st' a2 _ h1
        intro e' he' hfe' heq
        exact hnotin (heq ▸ mem_fileDstNames root rest e' he' hfe')
      rw [hpres, hself]
    · exact ih st1 st' a2 h1 hnd' e hmem hfe

theorem processEntries_rerun (root : String) (es : List ZipEntry) (st : DirState)
    (hle : ∀ e ∈ es, root.length + 1 ≤ e.name.length)
    (hlook : ∀ e ∈ es, e.isDir = false →
      lookupFile st.files (dstNameOf root e) = some e.content) :
    ∃ st' acts, processEntries root st es = some (st', acts) ∧
      st'.files = st.files ∧ ∀ a ∈ acts, a.isCreateDir = true := by
  induction es generalizing st with
  | nil => exact ⟨st, [], rfl, rfl, by simp⟩
  | cons e0 rest ih =>
    have hsk : e0.isDir = true ∨ lookupFile st.files (dstNameOf root e0) = some e0.content := by
      by_cases hd : e0.isDir = true
      · exact Or.inl hd
      · exact Or.inr (hlook e0 (by simp) (by simpa using hd))
    obtain ⟨st1, a1, h0, hf1, hc1⟩ :=
      processEntry_preserving root st e0 (hle e0 (by simp)) hsk
    obtain ⟨st2, a2, h1, hf2, hc2⟩ := ih st1 (fun e he => hle e (by simp [he]))
      (fun e he hfe => by rw [hf1]; exact hlook e (by simp [he]) hfe)
    refine ⟨st2, a1 ++ a2, ?_, by rw [hf2, hf1], ?_⟩
    · simp only [processEntries, h0, h1]
    · intro a ha
      rcases List.mem_append.mp ha with h | h
      · exact hc1 a h
      · exact hc2 a h

theorem unpack_archive_ok_inv (first : ZipEntry) (rest : List ZipEntry)
    (st st' : DirState) (acts : List FsAction)
    (h : unpack_archive (first :: rest) st = UnpackResult.ok st' acts) :
    processEntries (rootOf first.name)
      (if st.dirs.contains "" then st else { st with dirs := "" :: st.dirs }) rest
      = some (st', acts) := by
  simp only [unpack_archive] at h
  cases hp : processEntries (rootOf first.name)
      (if st.dirs.contains "" then st else { st with dirs := "" :: st.dirs }) rest with
  | none =>
    simp only [hp] at h
    exact UnpackResult.noConfusion h
  | some y =>
    rcases y with ⟨st1, a1⟩
    simp only [hp, UnpackResult.ok.injEq] at h
    rw [h.1, h.2]

/-! ### Claims about the unpacker -/

/-- C4, counterexample: for an archive holding the same destination path
twice with different contents (`dupArchive`), a second unpack against the
destination produced by a successful first unpack performs file deletions
and file writes — the second run is not a no-op. -/
theorem unpack_rerun_counterexample :
    unpack_archive dupArchive DirState.init =
      UnpackResult.ok ⟨[("x", [2])], [""]⟩
        [FsAction.writeFile "x" [1], FsAction.removeFile "x", FsAction.writeFile "x" [2]] ∧
    unpack_archive dupArchive ⟨[("x", [2])], [""]⟩ =
      UnpackResult.ok ⟨[("x", [2])], [""]⟩
        [FsAction.removeFile "x", FsAction.writeFile "x" [1],
         FsAction.removeFile "x", FsAction.writeFile "x" [2]] ∧
    FsAction.removeFile "x" ∈
      [FsAction.removeFile "x", FsAction.writeFile "x" [1],
       FsAction.removeFile "x", FsAction.writeFile "x" [2]] := by
  refine ⟨?_, ?_, ?_⟩ <;> decide

/-- C4, amended: for every archive whose file entries map to pairwise
distinct destination paths, running unpack a second time against a
destination already populated by a successful first unpack of the same
archive succeeds and performs zero file deletions and zero file writes
(every action of the second run is a directory creation; every file entry is
skipped because its digest matches). -/
theorem unpack_rerun_no_file_changes (first : ZipEntry) (rest : List ZipEntry)
    (st0 st1 : DirState) (acts1 : List FsAction)
    (hnd : (fileDstNames (rootOf first.name) rest).Nodup)
    (h1 : unpack_archive (first :: rest) st0 = UnpackResult.ok st1 acts1) :
    ∃ st2 acts2, unpack_archive (first :: rest) st1 = UnpackResult.ok st2 acts2 ∧
      ∀ a ∈ acts2, a.isCreateDir = true := by
  have hp1 := unpack_archive_ok_inv first rest st0 st1 acts1 h1
  have hle := processEntries_names_le (rootOf first.name) _ rest _ hp1
  have hcontent := processEntries_lookup_content (rootOf first.name) _ rest st1 acts1 hp1 hnd
  have hfiles : (if st1.dirs.contains "" then st1
      else { st1 with dirs := "" :: st1.dirs }).files = st1.files := by
    split <;> rfl
  obtain ⟨st2, acts2, hp2, hf2, hc2⟩ := processEntries_rerun (rootOf first.name) rest
    (if st1.dirs.contains "" then st1 else { st1 with dirs := "" :: st1.dirs })
    hle (fun e he hfe => by rw [hfiles]; exact hcontent e he hfe)
  refine ⟨st2, acts2, ?_, hc2⟩
  simp only [unpack_archive, hp2]

/-- Witness for C4 (amended): a two-entry archive `r/`, `r/a`, unpacked into
an empty destination and then unpacked again. -/
theorem unpack_rerun_no_file_changes_witness :
    (fileDstNames (rootOf "r/") [⟨"r/a", false, [5]⟩]).Nodup ∧
    unpack_archive [⟨"r/", true, []⟩, ⟨"r/a", false, [5]⟩] DirState.init =
      UnpackResult.ok ⟨[("a", [5])], [""]⟩ [FsAction.writeFile "a" [5]] ∧
    ∃ st2 acts2,
      unpack_archive [⟨"r/", true, []⟩, ⟨"r/a", false, [5]⟩] ⟨[("a", [5])], [""]⟩ =
        UnpackResult.ok st2 acts2 ∧ ∀ a ∈ acts2, a.isCreateDir = true :=
  ⟨by decide, by decide,
   unpack_rerun_no_file_changes ⟨"r/", true, []⟩ [⟨"r/a", false, [5]⟩]
     DirState.init ⟨[("a", [5])], [""]⟩ [FsAction.writeFile "a" [5]]
     (by decide) (by decide)⟩

/-- C5: when a file entry's destination file exists with content differing
from the entry's content, the unpack step deletes the existing file and
recreates it, so afterwards the destination file's content (hence its
digest) equals the archive entry's. -/
theorem unpack_replaces_divergent_file (root : String) (st : DirState) (e : ZipEntry)
    (existing : List Byte)
    (hfile : e.isDir = false)
    (hslice : root.length + 1 ≤ e.name.length)
    (hlook : lookupFile st.files (dstNameOf root e) = some existing)
    (hdiff : digestOf existing ≠ digestOf e.content) :
    ∃ st' acts, processEntry root st e = some (st', acts) ∧
      FsAction.removeFile (dstNameOf root e) ∈ acts ∧
      FsAction.writeFile (dstNameOf root e) e.content ∈ acts ∧
      lookupFile st'.files (dstNameOf root e) = some e.content := by
  have hs := rustSliceFrom_some e.name (root.length + 1) hslice
  have hfl := ensureDir_files st (pathParent (String.mk (e.name.data.drop (root.length + 1))))
  have hl2 : lookupFile ((ensureDir st (pathParent (String.mk (e.name.data.drop (root.length + 1))))).1.files)
      (String.mk (e.name.data.drop (root.length + 1))) = some existing := by
    rw [hfl]; exact hlook
  refine ⟨{ (ensureDir st (pathParent (String.mk (e.name.data.drop (root.length + 1))))).1 with
      files := setFile
        (eraseFile
          ((ensureDir st (pathParent (String.mk (e.name.data.drop (root.length + 1))))).1.files)
          (String.mk (e.name.data.drop (root.length + 1))))
        (String.mk (e.name.data.drop (root.length + 1))) e.content },
    (ensureDir st (pathParent (String.mk (e.name.data.drop (root.length + 1))))).2 ++
      [FsAction.removeFile (String.mk (e.name.data.drop (root.length + 1))),
       FsAction.writeFile (String.mk (e.name.data.drop (root.length + 1))) e.content],
    ?_, ?_, ?_, ?_⟩
  · simp [processEntry, hs, hfile, hl2, hdiff]
  · simp [dstNameOf]
  · simp [dstNameOf]
  · simp [dstNameOf, lookupFile_setFile]

/-- Witness for C5: entry `r/a` with content `[2]` over an existing
destination file `a` holding `[1]`. -/
theorem unpack_replaces_divergent_file_witness :
    ((⟨"r/a", false, [2]⟩ : ZipEntry).isDir = false) ∧
    "r".length + 1 ≤ ("r/a".length) ∧
    lookupFile [("a", [1])] (dstNameOf "r" ⟨"r/a", false, [2]⟩) = some [1] ∧
    digestOf [1] ≠ digestOf [2] ∧
    ∃ st' acts, processEntry "r" ⟨[("a", [1])], [""]⟩ ⟨"r/a", false, [2]⟩ = some (st', acts) ∧
      FsAction.removeFile (dstNameOf "r" ⟨"r/a", false, [2]⟩) ∈ acts ∧
      FsAction.writeFile (dstNameOf "r" ⟨"r/a", false, [2]⟩) [2] ∈ acts ∧
      lookupFile st'.files (dstNameOf "r" ⟨"r/a", false, [2]⟩) = some [2] :=
  ⟨by decide, by decide, by decide, by decide,
   unpack_replaces_divergent_file "r" ⟨[("a", [1])], [""]⟩ ⟨"r/a", false, [2]⟩ [1]
     (by decide) (by decide) (by decide) (by decide)⟩

/-- C6: for an archive whose first entry is the synthetic root
`projectname-v1.0/` and whose second entry is `projectname-v1.0/src/a.c`,
unpacking produces the file at `src/a.c` and no file at
`projectname-v1.0/src/a.c` — the root prefix is stripped from destination
paths. -/
theorem unpack_strips_root_dir (c : List Byte) :
    ∃ st acts,
      unpack_archive [⟨"projectname-v1.0/", true, []⟩,
                      ⟨"projectname-v1.0/src/a.c", false, c⟩] DirState.init =
        UnpackResult.ok st acts ∧
      lookupFile st.files "src/a.c" = some c ∧
      lookupFile st.files "projectname-v1.0/src/a.c" = none := by
  refine ⟨⟨[("src/a.c", c)], ["", "src", ""]⟩,
    [FsAction.createDir "src", FsAction.writeFile "src/a.c" c], ?_, ?_, ?_⟩
  · rfl
  · simp [lookupFile]
  · simp [lookupFile]

/-- C10, counterexample: an entry whose name length equals the root-prefix
length plus one (`abc` against root `ab`) does not make unpack panic — the
slice start index equals the name's length, which Rust accepts, yielding an
empty destination name; the claim's bound "not longer than" is too wide. -/
theorem unpack_boundary_no_panic :
    ("abc" : String).length = (rootOf "ab/").length + 1 ∧
    unpack_archive [⟨"ab/", true, []⟩, ⟨"abc", false, [7]⟩] DirState.init ≠
      UnpackResult.panicked := by
  refine ⟨?_, ?_⟩ <;> decide

/-- C10, amended: for every archive whose first entry after the synthetic
root entry has a name strictly shorter than the root prefix plus one
character, unpack panics (byte-slice out of range when computing the
stripped destination name, `src/build.rs:79`) instead of returning an error
value, whatever the state and whatever entries follow.  The claim is
restricted to the first processed entry because the slice is evaluated
before any filesystem operation of a loop iteration, so no propagated error
can pre-empt the panic there; a short entry at a later position is reached
only if every earlier iteration completes, and an earlier iteration can
instead abort with a propagated error (for example `File::open` at
`src/build.rs:92` fails when a directory occupies a file entry's
destination), in which case unpack returns that error and never panics. -/
theorem unpack_short_entry_panics (first e : ZipEntry) (rest : List ZipEntry)
    (st : DirState)
    (h : e.name.length < (rootOf first.name).length + 1) :
    unpack_archive (first :: e :: rest) st = UnpackResult.panicked := by
  have hnone : ∀ st' : DirState, processEntry (rootOf first.name) st' e = none :=
    fun st' => processEntry_none_of_short (rootOf first.name) st' e h
  simp [unpack_archive, processEntries, hnone]

/-- Witness for C10 (amended): root `ab`, second entry named `a`. -/
theorem unpack_short_entry_panics_witness :
    ("a" : String).length < (rootOf ("ab/" : String)).length + 1 ∧
    unpack_archive [⟨"ab/", true, []⟩, ⟨"a", false, [7]⟩] DirState.init =
      UnpackResult.panicked :=
  ⟨by decide,
   unpack_short_entry_panics ⟨"ab/", true, []⟩ ⟨"a", false, [7]⟩ [] DirState.init
     (by decide)⟩

end OpusBuild
